import Mathlib

/-!
Verification development for the AcidSnip item-tree engine
(src/extension.ts).  The definitions below are shallow embeddings of the
webview script's store operations: the flat item store, `isDescendant`,
the drag-and-drop `ondrop` handlers, `performDelete`,
`applyColorRecursively`, `performSearch`, and the argument-template
pipeline of `executeCommand`.  Items are records, the store is the
ordered `items` array as a `List Item`, JavaScript `undefined` fields
are `Option`, and the potentially non-terminating recursive color
cascade takes explicit fuel.
-/

namespace AcidSnip

/-- Item kinds: the `type` field of a store item
(`snippet | separator | folder | tab`). -/
inductive ItemType where
  | snippet
  | separator
  | folder
  | tab
deriving DecidableEq

/-- A store item.  Mirrors the object literals pushed into `items` in
src/extension.ts: `id`, `name`, `type`, optional `command`,
`description`, `color`, `parentId`, and folder-only `expanded`.
`undefined`/absent fields are `none`. -/
structure Item where
  id : String
  name : String := ""
  type : ItemType
  command : Option String := none
  description : Option String := none
  color : Option String := none
  parentId : Option String := none
  expanded : Bool := false
deriving DecidableEq

/-- JavaScript truthiness of `item.parentId`: `undefined`, `null` and
the empty string are falsy. -/
def truthyParent (i : Item) : Option String :=
  match i.parentId with
  | none => none
  | some p => if p = "" then none else some p

/-- Measure for the `isDescendant` loop: ids of the store not yet in
the visited set. -/
def unvisited (items : List Item) (visited : List String) : List String :=
  (items.map Item.id).filter (fun x => !(visited.contains x))

theorem filter_unvisited_lt (l v : List String) (a : String)
    (ha : a ∈ l) (hav : a ∉ v) :
    (l.filter (fun x => !((a :: v).contains x))).length <
      (l.filter (fun x => !(v.contains x))).length := by
  have sub : List.Sublist (l.filter (fun x => !((a :: v).contains x)))
      (l.filter (fun x => !(v.contains x))) := by
    apply List.monotone_filter_right
    intro x hx
    simp only [List.contains_cons, Bool.not_eq_true', Bool.or_eq_false_iff] at hx
    simp only [Bool.not_eq_true']
    exact hx.2
  have haR : a ∈ l.filter (fun x => !(v.contains x)) := by
    refine List.mem_filter.mpr ⟨ha, ?_⟩
    simp only [Bool.not_eq_true']
    exact Bool.eq_false_iff.mpr (fun h => hav (List.elem_iff.mp h))
  have haL : a ∉ l.filter (fun x => !((a :: v).contains x)) := by
    intro h
    have h2 := (List.mem_filter.mp h).2
    simp [List.contains_cons] at h2
  refine Nat.lt_of_le_of_ne sub.length_le (fun he => ?_)
  exact haL (sub.eq_of_length he ▸ haR)

theorem unvisited_cons_lt (items : List Item) (visited : List String)
    (a : String) (ha : a ∈ items.map Item.id) (hav : a ∉ visited) :
    (unvisited items (a :: visited)).length < (unvisited items visited).length :=
  filter_unvisited_lt (items.map Item.id) visited a ha hav

/-- The body of `isDescendant`'s `while` loop (src/extension.ts
`isDescendant`): `cur` is the current item, `visited` the visited-id
set.  Stops with `false` when the parent link is falsy or the visited
guard fires; returns `true` when `cur.parentId === parentId`; otherwise
follows `items.find(i => i.id === current.parentId)`. -/
def isDescAux (items : List Item) (pid : String) (visited : List String)
    (cur : Item) (hcur : cur ∈ items) : Bool :=
  match hp : truthyParent cur with
  | none => false
  | some p =>
    if hvis : visited.contains cur.id then false
    else if cur.parentId = some pid then true
    else
      match hf : items.find? (fun i => i.id = cur.parentId.getD "") with
      | none => false
      | some nxt => isDescAux items pid (cur.id :: visited) nxt
          (List.mem_of_find?_eq_some hf)
termination_by (unvisited items visited).length
decreasing_by
  apply unvisited_cons_lt
  · exact List.mem_map_of_mem Item.id hcur
  · exact fun h => hvis (List.elem_iff.mpr h)

/-- Embeds `isDescendant(parentId, childId)` from src/extension.ts: walks the
`parentId` chain upward from `childId` with a visited-set guard,
returning `true` iff `parentId` is hit. -/
def isDescendant (items : List Item) (pid cid : String) : Bool :=
  match hf : items.find? (fun i => i.id = cid) with
  | none => false
  | some c => isDescAux items pid [] c (List.mem_of_find?_eq_some hf)

/-- The same loop with an explicit iteration budget: `none` means the
budget was exhausted before the `while` loop finished.  Used to state
that the visited guard bounds the iteration count on every store. -/
def isDescFuelAux (items : List Item) (pid : String) :
    Nat → List String → Item → Option Bool
  | 0, _, _ => none
  | fuel + 1, visited, cur =>
    match truthyParent cur with
    | none => some false
    | some _ =>
      if visited.contains cur.id then some false
      else if cur.parentId = some pid then some true
      else
        match items.find? (fun i => i.id = cur.parentId.getD "") with
        | none => some false
        | some nxt => isDescFuelAux items pid fuel (cur.id :: visited) nxt

/-- Fuel-bounded `isDescendant`. -/
def isDescendantFuel (items : List Item) (pid cid : String) (fuel : Nat) :
    Option Bool :=
  match items.find? (fun i => i.id = cid) with
  | none => some false
  | some c => isDescFuelAux items pid fuel [] c

/-- Store ids are pairwise distinct (the data model's id-uniqueness
invariant). -/
def NodupIds (items : List Item) : Prop := (items.map Item.id).Nodup

instance (items : List Item) : Decidable (NodupIds items) := by
  unfold NodupIds; infer_instance

/-- One item respects a rank function: its parent (if any) has
strictly larger rank. -/
def rankStep (rank : String → Nat) (i : Item) : Bool :=
  match i.parentId with
  | some q => decide (rank i.id < rank q)
  | none => true

/-- A rank function witnessing the forest invariant: every parent link
strictly increases the rank, so parent chains cannot cycle. -/
def RankOK (rank : String → Nat) (items : List Item) : Prop :=
  ∀ i ∈ items, rankStep rank i = true

instance (rank : String → Nat) (items : List Item) :
    Decidable (RankOK rank items) := by
  unfold RankOK
  exact List.decidableBAll _ items

theorem rankOK_lt {rank : String → Nat} {items : List Item}
    (h : RankOK rank items) {i : Item} (hi : i ∈ items) {q : String}
    (hq : i.parentId = some q) : rank i.id < rank q := by
  have hs := h i hi
  unfold rankStep at hs
  rw [hq] at hs
  exact of_decide_eq_true hs

/-- Holds when `pid` occurs on the parent chain walked upward from the item whose
id is `c`: each step goes from an item to the store item whose id is
its (truthy) `parentId`. -/
inductive ReachesUp (items : List Item) (pid : String) : String → Prop where
  | direct {c : String} (i : Item) (hi : i ∈ items) (hid : i.id = c)
      (hp : truthyParent i = some pid) : ReachesUp items pid c
  | step {c : String} (i : Item) (p : String) (hi : i ∈ items) (hid : i.id = c)
      (hp : truthyParent i = some p) (h : ReachesUp items pid p) :
      ReachesUp items pid c

theorem ReachesUp.exists_item {items : List Item} {pid c : String}
    (h : ReachesUp items pid c) : ∃ i ∈ items, i.id = c := by
  cases h with
  | direct i hi hid _ => exact ⟨i, hi, hid⟩
  | step i p hi hid _ _ => exact ⟨i, hi, hid⟩

theorem truthyParent_some {i : Item} {p : String}
    (h : truthyParent i = some p) : i.parentId = some p ∧ p ≠ "" := by
  cases hp : i.parentId with
  | none => simp [truthyParent, hp] at h
  | some q =>
    by_cases hq : q = ""
    · simp [truthyParent, hp, hq] at h
    · simp only [truthyParent, hp, if_neg hq, Option.some.injEq] at h
      subst h
      exact ⟨rfl, hq⟩

theorem isDescAux_none {items : List Item} {pid : String} {visited : List String}
    {cur : Item} {hcur : cur ∈ items} (h : truthyParent cur = none) :
    isDescAux items pid visited cur hcur = false := by
  rw [isDescAux, h]

theorem isDescAux_vis {items : List Item} {pid : String} {visited : List String}
    {cur : Item} {hcur : cur ∈ items} {p : String}
    (h : truthyParent cur = some p) (hv : visited.contains cur.id = true) :
    isDescAux items pid visited cur hcur = false := by
  rw [isDescAux, h]
  rw [dif_pos hv]

theorem isDescAux_hit {items : List Item} {pid : String} {visited : List String}
    {cur : Item} {hcur : cur ∈ items} {p : String}
    (h : truthyParent cur = some p) (hv : ¬ visited.contains cur.id = true)
    (hpid : cur.parentId = some pid) :
    isDescAux items pid visited cur hcur = true := by
  rw [isDescAux, h]
  rw [dif_neg hv, if_pos hpid]

theorem isDescAux_nofind {items : List Item} {pid : String} {visited : List String}
    {cur : Item} {hcur : cur ∈ items} {p : String}
    (h : truthyParent cur = some p) (hv : ¬ visited.contains cur.id = true)
    (hpid : ¬ cur.parentId = some pid)
    (hf : items.find? (fun i => i.id = cur.parentId.getD "") = none) :
    isDescAux items pid visited cur hcur = false := by
  rw [isDescAux, h]
  simp only [dif_neg hv, if_neg hpid]
  split
  · rfl
  · rename_i nxt hfs
    rw [hf] at hfs
    cases hfs

theorem isDescAux_rec {items : List Item} {pid : String} {visited : List String}
    {cur : Item} {hcur : cur ∈ items} {p : String} {nxt : Item}
    (h : truthyParent cur = some p) (hv : ¬ visited.contains cur.id = true)
    (hpid : ¬ cur.parentId = some pid)
    (hf : items.find? (fun i => i.id = cur.parentId.getD "") = some nxt) :
    isDescAux items pid visited cur hcur =
      isDescAux items pid (cur.id :: visited) nxt (List.mem_of_find?_eq_some hf) := by
  rw [isDescAux, h]
  simp only [dif_neg hv, if_neg hpid]
  split
  · rename_i hfn
    rw [hf] at hfn
    cases hfn
  · rename_i nxt' hfs
    rw [hf] at hfs
    cases hfs
    rfl

/-- On every store — cyclic or not — the `isDescendant` loop finishes
within `items.length + 1` iterations, because each iteration adds a
fresh store id to the visited set. -/
theorem isDescFuelAux_eq (items : List Item) (pid : String) :
    ∀ (fuel : Nat) (visited : List String) (cur : Item) (hcur : cur ∈ items),
      (unvisited items visited).length < fuel →
      isDescFuelAux items pid fuel visited cur =
        some (isDescAux items pid visited cur hcur) := by
  intro fuel
  induction fuel with
  | zero =>
    intro visited cur hcur h
    exact absurd h (Nat.not_lt_zero _)
  | succ fuel ih =>
    intro visited cur hcur hlt
    cases htp : truthyParent cur with
    | none =>
      rw [isDescAux_none htp]
      simp only [isDescFuelAux, htp]
    | some p =>
      by_cases hv : visited.contains cur.id = true
      · rw [isDescAux_vis htp hv]
        simp only [isDescFuelAux, htp, if_pos hv]
      · by_cases hpid : cur.parentId = some pid
        · rw [isDescAux_hit htp hv hpid]
          simp only [isDescFuelAux, htp, if_neg hv, if_pos hpid]
        · cases hf : items.find? (fun i => i.id = cur.parentId.getD "") with
          | none =>
            rw [isDescAux_nofind htp hv hpid hf]
            simp only [isDescFuelAux, htp, if_neg hv, if_neg hpid, hf]
          | some nxt =>
            rw [isDescAux_rec htp hv hpid hf]
            simp only [isDescFuelAux, htp, if_neg hv, if_neg hpid, hf]
            apply ih
            have hdec : (unvisited items (cur.id :: visited)).length <
                (unvisited items visited).length := by
              apply unvisited_cons_lt
              · exact List.mem_map_of_mem Item.id hcur
              · exact fun hmem => hv (List.elem_iff.mpr hmem)
            omega

/-- If the walk answers `true`, `pid` really occurs on the upward
parent chain (no well-formedness assumption needed). -/
theorem reaches_of_isDescAux (items : List Item) (pid : String) :
    ∀ (visited : List String) (cur : Item) (hcur : cur ∈ items),
      isDescAux items pid visited cur hcur = true →
      ReachesUp items pid cur.id := by
  apply isDescAux.induct items pid
      (motive := fun visited cur hcur =>
        isDescAux items pid visited cur hcur = true → ReachesUp items pid cur.id)
  · intro visited cur hcur htp h
    rw [isDescAux_none htp] at h
    cases h
  · intro visited cur hcur p htp hv h
    rw [isDescAux_vis htp hv] at h
    cases h
  · intro visited cur hcur p htp hv hpid _h
    exact ReachesUp.direct cur hcur rfl (by
      have h2 := truthyParent_some htp
      rw [hpid] at h2
      have : p = pid := by
        cases h2.1
        rfl
      rw [← this]
      exact htp)
  · intro visited cur hcur p htp hv hpid hf h
    rw [isDescAux_nofind htp hv hpid hf] at h
    cases h
  · intro visited cur hcur p htp hv hpid nxt hf ih h
    rw [isDescAux_rec htp hv hpid hf] at h
    have hr := ih h
    have hp2 := truthyParent_some htp
    have hnid : nxt.id = p := by
      have := List.find?_some hf
      simp only [decide_eq_true_eq] at this
      rw [this, hp2.1]
      rfl
    exact ReachesUp.step cur p hcur rfl htp (hnid ▸ hr)

theorem item_eq_of_id_eq {items : List Item} (hnd : NodupIds items)
    {i j : Item} (hi : i ∈ items) (hj : j ∈ items) (h : i.id = j.id) :
    i = j :=
  List.inj_on_of_nodup_map hnd hi hj h

/-- On a forest (rank-witnessed, no duplicate ids), if `pid` occurs on
the upward parent chain then the walk answers `true`: the visited
guard never fires because ranks strictly increase along the walk. -/
theorem isDescAux_of_reaches (items : List Item) (pid : String)
    (rank : String → Nat) (hnd : NodupIds items) (hr : RankOK rank items) :
    ∀ c, ReachesUp items pid c →
      ∀ (cur : Item) (hcur : cur ∈ items), cur.id = c →
        ∀ visited, (∀ x ∈ visited, rank x < rank cur.id) →
          isDescAux items pid visited cur hcur = true := by
  intro c h
  induction h with
  | direct i hi hid hp =>
    intro cur hcur hcid visited hinv
    have hic : i = cur := item_eq_of_id_eq hnd hi hcur (by rw [hid, hcid])
    subst hic
    have hv : ¬ visited.contains i.id = true := by
      intro hc
      exact absurd (hinv i.id (List.elem_iff.mp hc)) (lt_irrefl _)
    exact isDescAux_hit hp hv (truthyParent_some hp).1
  | step i p hi hid hp hrec ih =>
    intro cur hcur hcid visited hinv
    have hic : i = cur := item_eq_of_id_eq hnd hi hcur (by rw [hid, hcid])
    subst hic
    have hv : ¬ visited.contains i.id = true := by
      intro hc
      exact absurd (hinv i.id (List.elem_iff.mp hc)) (lt_irrefl _)
    have hp2 := truthyParent_some hp
    by_cases hpid : i.parentId = some pid
    · exact isDescAux_hit hp hv hpid
    · obtain ⟨j, hj, hjid⟩ := hrec.exists_item
      have hfind : (items.find? (fun i2 => i2.id = i.parentId.getD "")).isSome := by
        rw [List.find?_isSome]
        exact ⟨j, hj, by simp [hjid, hp2.1]⟩
      obtain ⟨nxt, hf⟩ := Option.isSome_iff_exists.mp hfind
      have hnid : nxt.id = p := by
        have := List.find?_some hf
        simp only [decide_eq_true_eq] at this
        rw [this, hp2.1]
        rfl
      rw [isDescAux_rec hp hv hpid hf]
      apply ih nxt (List.mem_of_find?_eq_some hf) hnid
      intro x hx
      rw [hnid]
      have hcurp : rank i.id < rank p := rankOK_lt hr hcur hp2.1
      cases List.mem_cons.mp hx with
      | inl hxe => rw [hxe]; exact hcurp
      | inr hxv => exact lt_trans (hinv x hxv) hcurp

theorem isDescendant_find_none {items : List Item} {pid cid : String}
    (hf : items.find? (fun i => i.id = cid) = none) :
    isDescendant items pid cid = false := by
  rw [isDescendant]
  split
  · rfl
  · rename_i c hfs
    rw [hf] at hfs
    cases hfs

theorem isDescendant_find_some {items : List Item} {pid cid : String} {c : Item}
    (hf : items.find? (fun i => i.id = cid) = some c) :
    isDescendant items pid cid =
      isDescAux items pid [] c (List.mem_of_find?_eq_some hf) := by
  rw [isDescendant]
  split
  · rename_i hfn
    rw [hf] at hfn
    cases hfn
  · rename_i c' hfs
    rw [hf] at hfs
    cases hfs
    rfl

theorem unvisited_nil_le (items : List Item) :
    (unvisited items []).length ≤ items.length := by
  unfold unvisited
  calc ((items.map Item.id).filter _).length
      ≤ (items.map Item.id).length := List.length_filter_le _ _
    _ = items.length := List.length_map _ _

/-- C8: for EVERY store — malformed cyclic stores included — and every
pair of ids, the `isDescendant` walk terminates: it needs at most
`items.length + 1` loop iterations, thanks to the visited-set guard
(first conjunct, no well-formedness assumption).  And on a well-formed
forest (distinct ids, rank-witnessed acyclic parent links) it returns
`true` exactly when the ancestor candidate id occurs on the `parentId`
chain walked upward from the node (second conjunct). -/
theorem isDescendant_terminates_and_chain_correct
    (items : List Item) (pid cid : String) :
    isDescendantFuel items pid cid (items.length + 1)
        = some (isDescendant items pid cid) ∧
    (∀ rank : String → Nat, NodupIds items → RankOK rank items →
      (isDescendant items pid cid = true ↔ ReachesUp items pid cid)) := by
  constructor
  · cases hfind : items.find? (fun i => i.id = cid) with
    | none =>
      rw [isDescendant_find_none hfind]
      simp only [isDescendantFuel, hfind]
    | some c =>
      rw [isDescendant_find_some hfind]
      simp only [isDescendantFuel, hfind]
      apply isDescFuelAux_eq
      exact Nat.lt_succ_of_le (unvisited_nil_le items)
  · intro rank hnd hr
    constructor
    · intro h
      cases hfind : items.find? (fun i => i.id = cid) with
      | none =>
        rw [isDescendant_find_none hfind] at h
        cases h
      | some c =>
        rw [isDescendant_find_some hfind] at h
        have hcid : c.id = cid := by
          have := List.find?_some hfind
          simpa using this
        exact hcid ▸ reaches_of_isDescAux items pid [] c
          (List.mem_of_find?_eq_some hfind) h
    · intro h
      obtain ⟨j, hj, hjid⟩ := h.exists_item
      have hfind : (items.find? (fun i => i.id = cid)).isSome := by
        rw [List.find?_isSome]
        exact ⟨j, hj, by simp [hjid]⟩
      obtain ⟨c, hf⟩ := Option.isSome_iff_exists.mp hfind
      rw [isDescendant_find_some hf]
      have hcid : c.id = cid := by
        have := List.find?_some hf
        simpa using this
      exact isDescAux_of_reaches items pid rank hnd hr cid h c
        (List.mem_of_find?_eq_some hf) hcid [] (by intro x hx; cases hx)

/-- Concrete forest for the C8 witness: a tab, a folder inside it and
a snippet inside the folder. -/
def w8items : List Item :=
  [{ id := "t", type := ItemType.tab },
   { id := "f", type := ItemType.folder, parentId := some "t" },
   { id := "s", type := ItemType.snippet, parentId := some "f" }]

/-- Rank function for the C8 witness forest. -/
def w8rank : String → Nat :=
  fun x => if x = "s" then 0 else if x = "f" then 1 else 2

/-- Malformed two-folder store whose parent links form a cycle, used
to witness that the termination conjunct of C8 really covers cyclic
stores. -/
def w8cyc : List Item :=
  [{ id := "a", type := ItemType.folder, parentId := some "b" },
   { id := "b", type := ItemType.folder, parentId := some "a" }]

theorem isDescendant_terminates_and_chain_correct_witness :
    (isDescendantFuel w8cyc "a" "b" (w8cyc.length + 1)
        = some (isDescendant w8cyc "a" "b")) ∧
    (isDescendantFuel w8items "t" "s" (w8items.length + 1)
        = some (isDescendant w8items "t" "s")) ∧
    (isDescendant w8items "t" "s" = true ↔ ReachesUp w8items "t" "s") :=
  ⟨(isDescendant_terminates_and_chain_correct w8cyc "a" "b").1,
   (isDescendant_terminates_and_chain_correct w8items "t" "s").1,
   (isDescendant_terminates_and_chain_correct w8items "t" "s").2 w8rank
     (by decide) (by decide)⟩

mutual

/-- Embeds `applyColorRecursively(parentId, color)` from src/extension.ts,
with explicit recursion fuel because the source has no visited-set
guard and therefore need not terminate on a malformed store.  `none`
means the fuel ran out before the depth-first walk finished. -/
def applyColorRecursively (fuel : Nat) (store : List Item)
    (pid color : String) : Option (List Item) :=
  match fuel with
  | 0 => none
  | fuel + 1 => acrGo fuel store store pid color
termination_by (fuel, 0)

/-- The `items.forEach` body of `applyColorRecursively`: `pending` is
the rest of the iteration, `store` the current store.  Mutations only
touch `color`, so the iteration decisions (`parentId`, `type`) are
unaffected by them. -/
def acrGo (fuel : Nat) (store : List Item) (pending : List Item)
    (pid color : String) : Option (List Item) :=
  match pending with
  | [] => some store
  | i :: rest =>
    if i.parentId = some pid then
      let store1 := store.map
        (fun j => if j.id = i.id then { j with color := some color } else j)
      if i.type = ItemType.folder then
        match applyColorRecursively fuel store1 i.id color with
        | none => none
        | some store2 => acrGo fuel store2 rest pid color
      else acrGo fuel store1 rest pid color
    else acrGo fuel store rest pid color
termination_by (fuel, pending.length + 1)

end

/-- Malformed two-folder store whose `parentId` links form a cycle,
with arbitrary colors (the only field the cascade mutates). -/
def cycStore (ca cb : Option String) : List Item :=
  [{ id := "a", type := ItemType.folder, parentId := some "b", color := ca },
   { id := "b", type := ItemType.folder, parentId := some "a", color := cb }]

theorem cycStore_none : ∀ (fuel : Nat) (ca cb : Option String) (color : String),
    applyColorRecursively fuel (cycStore ca cb) "a" color = none ∧
    applyColorRecursively fuel (cycStore ca cb) "b" color = none := by
  intro fuel
  induction fuel with
  | zero =>
    intro ca cb color
    constructor <;> simp [applyColorRecursively]
  | succ fuel ih =>
    intro ca cb color
    constructor
    · have h := (ih ca (some color) color).2
      rw [applyColorRecursively]
      simp [acrGo, cycStore] at h ⊢
      rw [h]
    · have h := (ih (some color) cb color).1
      rw [applyColorRecursively]
      simp [acrGo, cycStore] at h ⊢
      rw [h]

/-- The structural part of the store: ids and parent links.  The color
cascade mutates only colors, so it preserves this. -/
def skeleton (items : List Item) : List (String × Option String) :=
  items.map (fun i => (i.id, i.parentId))

theorem skeleton_map_color (store : List Item) (x c : String) :
    skeleton (store.map
      (fun j => if j.id = x then { j with color := some c } else j)) =
    skeleton store := by
  unfold skeleton
  induction store with
  | nil => rfl
  | cons j l ih =>
    simp only [List.map_cons, List.cons.injEq]
    refine ⟨?_, ih⟩
    by_cases h : j.id = x
    · rw [if_pos h]
    · rw [if_neg h]

theorem rankStep_congr (rank : String → Nat) {i j : Item}
    (h1 : i.id = j.id) (h2 : i.parentId = j.parentId) :
    rankStep rank i = rankStep rank j := by
  unfold rankStep
  rw [h1, h2]

theorem rankOK_of_skeleton {rank : String → Nat} {s1 s2 : List Item}
    (hsk : skeleton s1 = skeleton s2) (h : RankOK rank s1) :
    RankOK rank s2 := by
  intro i hi
  have hm : (i.id, i.parentId) ∈ skeleton s2 :=
    List.mem_map_of_mem (fun i => (i.id, i.parentId)) hi
  rw [← hsk] at hm
  obtain ⟨j, hj, hpair⟩ := List.mem_map.mp hm
  have h1 : j.id = i.id := congrArg Prod.fst hpair
  have h2 : j.parentId = i.parentId := congrArg Prod.snd hpair
  rw [← rankStep_congr rank h1 h2]
  exact h j hj

theorem acrGo_skeleton :
    ∀ (fuel : Nat) (pending store : List Item) (pid color : String)
      (out : List Item),
      acrGo fuel store pending pid color = some out →
      skeleton out = skeleton store := by
  intro fuel
  induction fuel using Nat.strong_induction_on with
  | _ fuel ihf =>
    intro pending
    induction pending with
    | nil =>
      intro store pid color out h
      rw [acrGo] at h
      cases h
      rfl
    | cons i rest ihp =>
      intro store pid color out h
      rw [acrGo] at h
      dsimp only at h
      by_cases hp : i.parentId = some pid
      · rw [if_pos hp] at h
        by_cases ht : i.type = ItemType.folder
        · rw [if_pos ht] at h
          cases hacr : applyColorRecursively fuel
              (store.map (fun j =>
                if j.id = i.id then { j with color := some color } else j))
              i.id color with
          | none => rw [hacr] at h; cases h
          | some store2 =>
            rw [hacr] at h
            have hsk2 : skeleton store2 = skeleton store := by
              cases fuel with
              | zero => rw [applyColorRecursively] at hacr; cases hacr
              | succ f =>
                rw [applyColorRecursively] at hacr
                have := ihf f (Nat.lt_succ_self f) _ _ _ _ _ hacr
                rw [this, skeleton_map_color]
            have := ihp store2 pid color out h
            rw [this, hsk2]
        · rw [if_neg ht] at h
          have := ihp _ pid color out h
          rw [this, skeleton_map_color]
      · rw [if_neg hp] at h
        exact ihp store pid color out h

theorem acrGo_isSome (rank : String → Nat) :
    ∀ (fuel : Nat) (pending store : List Item) (pid color : String),
      RankOK rank store →
      (∀ i ∈ pending, rankStep rank i = true) →
      rank pid ≤ fuel →
      (acrGo fuel store pending pid color).isSome := by
  intro fuel
  induction fuel using Nat.strong_induction_on with
  | _ fuel ihf =>
    intro pending
    induction pending with
    | nil =>
      intro store pid color _ _ _
      rw [acrGo]
      rfl
    | cons i rest ihp =>
      intro store pid color hstore hpend hfuel
      rw [acrGo]
      dsimp only
      by_cases hp : i.parentId = some pid
      · rw [if_pos hp]
        have hst1 : RankOK rank (store.map (fun j =>
            if j.id = i.id then { j with color := some color } else j)) :=
          rankOK_of_skeleton (skeleton_map_color store i.id color).symm hstore
        by_cases ht : i.type = ItemType.folder
        · rw [if_pos ht]
          have hlt : rank i.id < rank pid := by
            have hs := hpend i (List.mem_cons_self i rest)
            unfold rankStep at hs
            rw [hp] at hs
            exact of_decide_eq_true hs
          have hif : rank i.id < fuel := lt_of_lt_of_le hlt hfuel
          cases fuel with
          | zero => exact absurd hif (Nat.not_lt_zero _)
          | succ f =>
            have hacr : (applyColorRecursively (f + 1)
                (store.map (fun j =>
                  if j.id = i.id then { j with color := some color } else j))
                i.id color).isSome := by
              rw [applyColorRecursively]
              exact ihf f (Nat.lt_succ_self f) _ _ i.id color hst1
                (fun j hj => hst1 j hj) (Nat.lt_succ_iff.mp hif)
            obtain ⟨store2, hacr2⟩ := Option.isSome_iff_exists.mp hacr
            rw [hacr2]
            have hsk2 : skeleton store2 = skeleton store := by
              rw [applyColorRecursively] at hacr2
              have := acrGo_skeleton f _ _ _ _ _ hacr2
              rw [this, skeleton_map_color]
            exact ihp store2 pid color
              (rankOK_of_skeleton hsk2.symm hstore)
              (fun j hj => hpend j (List.mem_cons_of_mem i hj)) hfuel
        · rw [if_neg ht]
          exact ihp _ pid color hst1
            (fun j hj => hpend j (List.mem_cons_of_mem i hj)) hfuel
      · rw [if_neg hp]
        exact ihp store pid color hstore
          (fun j hj => hpend j (List.mem_cons_of_mem i hj)) hfuel

/-- C4 counterexample: the recursive color cascade has no visited-set
guard, so on a malformed store whose `parentId` links form a cycle the
depth-first walk never finishes — no iteration budget whatsoever makes
it return. -/
theorem applyColorRecursively_cycle_diverges :
    ¬ ∃ (fuel : Nat) (out : List Item),
      applyColorRecursively fuel (cycStore none none) "a" "#ff0000" = some out := by
  rintro ⟨fuel, out, h⟩
  rw [(cycStore_none fuel none none "#ff0000").1] at h
  cases h

/-- C4 (amended): the recursive color cascade terminates on every
store satisfying the forest invariant (rank-witnessed acyclic parent
links): any fuel exceeding the rank of the starting folder suffices. -/
theorem applyColorRecursively_terminates_on_forest
    (items : List Item) (pid color : String) (rank : String → Nat)
    (hr : RankOK rank items) (fuel : Nat) (hfuel : rank pid < fuel) :
    (applyColorRecursively fuel items pid color).isSome := by
  cases fuel with
  | zero => exact absurd hfuel (Nat.not_lt_zero _)
  | succ f =>
    rw [applyColorRecursively]
    exact acrGo_isSome rank f items items pid color hr
      (fun i hi => hr i hi) (Nat.lt_succ_iff.mp hfuel)

theorem applyColorRecursively_terminates_on_forest_witness :
    RankOK w8rank w8items ∧ w8rank "t" < 3 ∧
    (applyColorRecursively 3 w8items "t" "#00ff00").isSome :=
  ⟨by decide, by decide,
    applyColorRecursively_terminates_on_forest w8items "t" "#00ff00" w8rank
      (by decide) 3 (by decide)⟩

/-- Embeds `performDelete(id)` from src/extension.ts: if the deleted item is
a folder or tab, every item whose `parentId` is the deleted id is
rewritten to the deleted item's own `parentId` (promotion); then every
item with the deleted id is filtered out.  (The active-view fallback
touches only UI state, not the store.) -/
def performDelete (items : List Item) (id : String) : List Item :=
  let items1 : List Item :=
    match items.find? (fun i => i.id = id) with
    | some d =>
      if d.type = ItemType.folder ∨ d.type = ItemType.tab then
        items.map (fun i =>
          if i.parentId = some id then { i with parentId := d.parentId } else i)
      else items
    | none => items
  items1.filter (fun i => i.id ≠ id)

/-- C5: deleting a folder (or tab) rewrites exactly its direct
children's `parentId` to the deleted item's own `parentId`, preserves
everyone's relative order and other fields, and removes the deleted
item itself: the result is literally the original sequence minus the
deleted item, with the promotion map applied. -/
theorem performDelete_promotes
    (items : List Item) (id : String) (d : Item)
    (hf : items.find? (fun i => i.id = id) = some d)
    (htype : d.type = ItemType.folder ∨ d.type = ItemType.tab) :
    performDelete items id =
      (items.filter (fun i => i.id ≠ id)).map
        (fun i =>
          if i.parentId = some id then { i with parentId := d.parentId } else i) ∧
    ∀ j ∈ performDelete items id, j.id ≠ id := by
  have hcomm : ∀ (l : List Item) (f : Item → Item) (p : Item → Bool),
      (∀ i, p (f i) = p i) → (l.map f).filter p = (l.filter p).map f := by
    intro l f p hpf
    induction l with
    | nil => rfl
    | cons a l ih =>
      simp only [List.map_cons, List.filter_cons, hpf]
      by_cases hpa : p a = true
      · rw [if_pos hpa, if_pos hpa, List.map_cons, ih]
      · rw [if_neg hpa, if_neg hpa, ih]
  have hmain : performDelete items id =
      (items.filter (fun i => i.id ≠ id)).map
        (fun i =>
          if i.parentId = some id then { i with parentId := d.parentId } else i) := by
    unfold performDelete
    rw [hf]
    dsimp only
    rw [if_pos htype]
    apply hcomm
    intro i
    by_cases h : i.parentId = some id
    · rw [if_pos h]
    · rw [if_neg h]
  refine ⟨hmain, ?_⟩
  intro j hj
  rw [hmain] at hj
  obtain ⟨i, hi, hij⟩ := List.mem_map.mp hj
  have hii : i.id ≠ id := by
    have := List.mem_filter.mp hi
    simpa using this.2
  have : j.id = i.id := by
    rw [← hij]
    by_cases hpa : i.parentId = some id
    · rw [if_pos hpa]
    · rw [if_neg hpa]
  rw [this]
  exact hii

theorem performDelete_promotes_witness :
    performDelete w8items "f" =
      (w8items.filter (fun i => i.id ≠ "f")).map
        (fun i =>
          if i.parentId = some "f" then { i with parentId := some "t" } else i) ∧
    ∀ j ∈ performDelete w8items "f", j.id ≠ "f" :=
  performDelete_promotes w8items "f"
    { id := "f", type := ItemType.folder, parentId := some "t" }
    (by decide) (Or.inl rfl)

/-- Tests whether `needle` occurs at the front of the character list (the inner step
of JavaScript `String.prototype.includes`). -/
def listLeads : List Char → List Char → Bool
  | [], _ => true
  | _ :: _, [] => false
  | a :: as, b :: bs => a = b && listLeads as bs

/-- Embeds `hay.includes(needle)`: `needle` occurs as a contiguous substring
of `hay`. -/
def listHasSub (hay needle : List Char) : Bool :=
  (List.range (hay.length + 1)).any (fun k => listLeads needle (hay.drop k))

/-- String-level substring containment (JS `includes`). -/
def strHasSub (hay needle : String) : Bool :=
  listHasSub hay.data needle.data

/-- JavaScript `toLowerCase()` (character-wise lower-casing). -/
def lowerStr (s : String) : String := String.mk (s.data.map Char.toLower)

/-- JavaScript `trim()`: strip leading and trailing whitespace. -/
def trimStr (s : String) : String :=
  String.mk
    (((s.data.dropWhile Char.isWhitespace).reverse.dropWhile
        Char.isWhitespace).reverse)

/-- The match predicate of `performSearch` (src/extension.ts
2861-2867): separators never match; otherwise a truthy `name`,
`command` or `description` must contain the query, case-insensitively
(fields lower-cased, query already lower-cased). -/
def searchMatch (query : String) (i : Item) : Bool :=
  if i.type = ItemType.separator then false
  else
    let nameMatch := i.name ≠ "" && strHasSub (lowerStr i.name) query
    let cmdMatch :=
      match i.command with
      | some c => c ≠ "" && strHasSub (lowerStr c) query
      | none => false
    let descMatch :=
      match i.description with
      | some ds => ds ≠ "" && strHasSub (lowerStr ds) query
      | none => false
    nameMatch || cmdMatch || descMatch

/-- Embeds `performSearch` from src/extension.ts: lower-cases and trims the
query; an empty (or whitespace) query performs no search (`none`, the
code re-renders the tree instead); otherwise the result is the ordered
filter of the store by `searchMatch`. -/
def performSearch (queryRaw : String) (items : List Item) : Option (List Item) :=
  let query := trimStr (lowerStr queryRaw)
  if query = "" then none
  else some (items.filter (searchMatch query))

theorem strHasSub_empty_hay {q : String} (hq : q ≠ "") :
    strHasSub "" q = false := by
  unfold strHasSub listHasSub
  cases hqd : q.data with
  | nil => exact absurd (String.ext hqd) hq
  | cons a as =>
    show (List.range (([] : List Char).length + 1)).any _ = false
    simp only [List.length_nil, List.range_succ, List.range_zero,
      List.nil_append, List.any_cons, List.any_nil, List.drop_nil, hqd]
    rfl

theorem lowerStr_empty : lowerStr "" = "" := rfl

theorem fieldMatch_iff {q : String} (hq : q ≠ "") (s : String) :
    ((s ≠ "" && strHasSub (lowerStr s) q) = true) ↔
      strHasSub (lowerStr s) q = true := by
  by_cases hs : s = ""
  · subst hs
    rw [lowerStr_empty, strHasSub_empty_hay hq]
    simp
  · simp [hs]

theorem optMatch_iff {q : String} (hq : q ≠ "") (o : Option String) :
    ((match o with
      | some c => c ≠ "" && strHasSub (lowerStr c) q
      | none => false) = true) ↔
      (∃ c, o = some c ∧ strHasSub (lowerStr c) q = true) := by
  cases o with
  | none => simp
  | some c =>
    rw [fieldMatch_iff hq c]
    constructor
    · intro h
      exact ⟨c, rfl, h⟩
    · rintro ⟨c', hc', h⟩
      cases Option.some.inj hc'
      exact h

theorem searchMatch_iff {q : String} (hq : q ≠ "") (i : Item) :
    searchMatch q i = true ↔
      (i.type ≠ ItemType.separator ∧
        (strHasSub (lowerStr i.name) q = true ∨
         (∃ c, i.command = some c ∧ strHasSub (lowerStr c) q = true) ∨
         (∃ ds, i.description = some ds ∧ strHasSub (lowerStr ds) q = true))) := by
  unfold searchMatch
  by_cases ht : i.type = ItemType.separator
  · simp [ht]
  · rw [if_neg ht]
    dsimp only
    rw [Bool.or_eq_true, Bool.or_eq_true]
    rw [fieldMatch_iff hq, optMatch_iff hq, optMatch_iff hq]
    simp [ht, or_assoc]

/-- C9: for every item list and every query whose lower-cased, trimmed
form is non-empty, `performSearch` returns exactly the items — in
store order (a sublist of the store) — whose `name`, `command` or
`description` case-insensitively contains the trimmed query as a
substring, separators excluded; it is total, so a query with no
matches yields the empty list, never a failure. -/
theorem performSearch_characterization (queryRaw : String) (items : List Item)
    (hq : trimStr (lowerStr queryRaw) ≠ "") :
    ∃ res, performSearch queryRaw items = some res ∧
      List.Sublist res items ∧
      (∀ i, i ∈ res ↔ i ∈ items ∧ i.type ≠ ItemType.separator ∧
        (strHasSub (lowerStr i.name) (trimStr (lowerStr queryRaw)) = true ∨
         (∃ c, i.command = some c ∧
            strHasSub (lowerStr c) (trimStr (lowerStr queryRaw)) = true) ∨
         (∃ ds, i.description = some ds ∧
            strHasSub (lowerStr ds) (trimStr (lowerStr queryRaw)) = true))) := by
  refine ⟨items.filter (searchMatch (trimStr (lowerStr queryRaw))), ?_,
    List.filter_sublist items, ?_⟩
  · unfold performSearch
    rw [if_neg hq]
  · intro i
    rw [List.mem_filter, searchMatch_iff hq]

/-- Concrete store for the C9 witness. -/
def w9items : List Item :=
  [{ id := "1", name := "Deploy", type := ItemType.snippet,
     command := some "git push", description := some "push it" },
   { id := "2", name := "---", type := ItemType.separator },
   { id := "3", name := "Install", type := ItemType.snippet,
     command := some "npm i" }]

theorem performSearch_characterization_witness :
    trimStr (lowerStr "GIT ") ≠ "" ∧
    (∃ res, performSearch "GIT " w9items = some res ∧
      List.Sublist res w9items ∧
      (∀ i, i ∈ res ↔ i ∈ w9items ∧ i.type ≠ ItemType.separator ∧
        (strHasSub (lowerStr i.name) (trimStr (lowerStr "GIT ")) = true ∨
         (∃ c, i.command = some c ∧
            strHasSub (lowerStr c) (trimStr (lowerStr "GIT ")) = true) ∨
         (∃ ds, i.description = some ds ∧
            strHasSub (lowerStr ds) (trimStr (lowerStr "GIT ")) = true)))) :=
  ⟨by decide, performSearch_characterization "GIT " w9items (by decide)⟩

/-- Drop positions computed in `ondragover` (`el.dataset.dropPos`). -/
inductive DropPos where
  | before
  | after
  | inside
deriving DecidableEq

/-- JavaScript `array.splice(n, 0, x)`: insert `x` at position `n`
(appending when `n` is past the end). -/
def insertAt (l : List Item) (n : Nat) (x : Item) : List Item :=
  l.take n ++ x :: l.drop n

/-- The `ondrop` handler installed by `setupDragDrop` (src/extension.ts
2124-2164) on folders, snippets and separators.  `draggedId` comes from
the drag payload and the handler's closed-over `item` is identified by
`targetId`.  In-place object mutations become id-keyed maps (store ids
are unique). -/
def onDrop (items : List Item) (draggedId targetId : String)
    (pos : DropPos) : List Item :=
  match items.find? (fun i => i.id = draggedId) with
  | none => items
  | some dragged =>
    if dragged.id = targetId then items
    else
      match items.find? (fun i => i.id = targetId) with
      | none => items
      | some target =>
        if target.type = ItemType.folder ∧
            isDescendant items dragged.id target.id = true then items
        else if pos = DropPos.inside ∧ target.type = ItemType.folder then
          items.map (fun i =>
            if i.id = dragged.id then { i with parentId := some target.id }
            else if i.id = target.id then { i with expanded := true }
            else i)
        else
          let dragged1 := { dragged with parentId := target.parentId }
          let items1 : List Item :=
            items.map (fun i => if i.id = dragged.id then dragged1 else i)
          let fromIdx := items1.findIdx (fun i => i.id = dragged.id)
          let items2 := items1.eraseIdx fromIdx
          let toIdx := items2.findIdx (fun i => i.id = target.id)
          if pos = DropPos.after then insertAt items2 (toIdx + 1) dragged1
          else insertAt items2 toIdx dragged1

/-- The `ondrop` handler installed on tab-bar elements (src/extension.ts
1918-1948).  A dragged tab is spliced out and reinserted around the
target tab (JS `indexOf` returning `-1` for the synthetic root tab is
modelled by the `findIdx?` `none` branch, matching `splice`'s negative
index clamping); any other dragged item is simply reparented to the
tab. -/
def onTabBarDrop (items : List Item) (draggedId targetTabId : String)
    (pos : DropPos) : List Item :=
  match items.find? (fun i => i.id = draggedId) with
  | none => items
  | some dragged =>
    if dragged.type = ItemType.tab then
      let fromIdx := items.findIdx (fun i => i.id = dragged.id)
      let items1 := items.eraseIdx fromIdx
      match items1.findIdx? (fun i => i.id = targetTabId) with
      | some toIdx =>
        if pos = DropPos.after then insertAt items1 (toIdx + 1) dragged
        else insertAt items1 toIdx dragged
      | none =>
        if pos = DropPos.after then insertAt items1 0 dragged
        else insertAt items1 (items1.length - 1) dragged
    else
      items.map (fun i =>
        if i.id = dragged.id then
          { i with parentId :=
              if targetTabId = "root" then none else some targetTabId }
        else i)

/-- The content-area `ondrop` handler (src/extension.ts 1823-1838):
reparents the dragged item to the active tab (`root` means no parent)
and moves it to the end of the sequence.  It never checks the dragged
item's kind. -/
def onContentDrop (items : List Item) (draggedId activeTabId : String) :
    List Item :=
  match items.find? (fun i => i.id = draggedId) with
  | none => items
  | some dragged =>
    let dragged1 : Item :=
      { dragged with parentId :=
          if activeTabId = "root" then none else some activeTabId }
    let items1 : List Item :=
      items.map (fun i => if i.id = dragged.id then dragged1 else i)
    let idx := items1.findIdx (fun i => i.id = dragged.id)
    (items1.eraseIdx idx) ++ [dragged1]

theorem insertAt_perm (l : List Item) (n : Nat) (x : Item) :
    List.Perm (insertAt l n x) (x :: l) := by
  have h1 : List.Perm (l.take n ++ x :: l.drop n) (x :: (l.take n ++ l.drop n)) :=
    List.perm_middle
  rw [List.take_append_drop] at h1
  exact h1

theorem find?_getElem_findIdx {α : Type} (l : List α) (p : α → Bool) (d : α)
    (h : l.find? p = some d) :
    l.findIdx p < l.length ∧ l[l.findIdx p]? = some d := by
  induction l with
  | nil => cases h
  | cons a t ih =>
    by_cases hpa : p a = true
    · rw [List.find?_cons_of_pos _ hpa] at h
      cases h
      rw [List.findIdx_cons, hpa]
      simp only [cond_true]
      exact ⟨Nat.succ_pos _, by simp⟩
    · rw [List.find?_cons_of_neg _ hpa] at h
      obtain ⟨hlt, hget⟩ := ih h
      rw [List.findIdx_cons]
      simp only [hpa, cond_false]
      exact ⟨Nat.succ_lt_succ hlt, by rw [List.getElem?_cons_succ]; exact hget⟩

theorem perm_cons_eraseIdx (l : List Item) (n : Nat) (hn : n < l.length)
    (x : Item) (hx : l[n]? = some x) : List.Perm l (x :: l.eraseIdx n) := by
  rw [List.eraseIdx_eq_take_drop_succ]
  have hdrop : l.drop n = x :: l.drop (n + 1) := by
    rw [List.drop_eq_getElem_cons hn]
    have : l[n] = x := by
      have h2 : l[n]? = some l[n] := List.getElem?_eq_getElem hn
      rw [hx] at h2
      exact (Option.some.inj h2).symm
    rw [this]
  have hl : l = l.take n ++ x :: l.drop (n + 1) := by
    rw [← hdrop, List.take_append_drop]
  conv_lhs => rw [hl]
  exact List.perm_middle

/-- C1 failing input: a folder `f` and its direct snippet child `s`. -/
def w1items : List Item :=
  [{ id := "f", type := ItemType.folder },
   { id := "s", type := ItemType.snippet, parentId := some "f" }]

/-- C1: dropping folder `f` 'before' its own snippet child `s` is NOT
rejected — the cycle guard in `setupDragDrop` fires only when the drop
target is a folder — so the store is mutated and `f` becomes its own
parent, violating the forest invariant the handler's own comment
("Prevent circular references") promises to protect. -/
theorem onDrop_before_own_child_creates_cycle :
    (onDrop w1items "f" "s" DropPos.before).find? (fun i => i.id = "f") =
      some { id := "f", type := ItemType.folder, parentId := some "f" } ∧
    onDrop w1items "f" "s" DropPos.before ≠ w1items := by
  exact ⟨by decide, by decide⟩

/-- C2 counterexample input: two tabs; `t1` is the active view. -/
def w2items : List Item :=
  [{ id := "t1", type := ItemType.tab },
   { id := "t2", type := ItemType.tab }]

/-- C2 counterexample: dropping the dragged tab `t2` on the content
area while tab `t1` is active assigns `t2` the parentId `t1` — the
content-area drop handler never checks the dragged item's kind, so a
tab CAN acquire a `parentId`. -/
theorem onContentDrop_assigns_parent_to_tab :
    w2items.find? (fun i => i.id = "t2") =
      some { id := "t2", type := ItemType.tab } ∧
    (onContentDrop w2items "t2" "t1").find? (fun i => i.id = "t2") =
      some { id := "t2", type := ItemType.tab, parentId := some "t1" } := by
  exact ⟨by decide, by decide⟩

/-- C2 (amended): on the tab-bar drop path, dragging a tab is a pure
reorder — the result is a permutation of the store, so every item
(the dragged tab included) keeps all its fields, in particular no
`parentId` is ever assigned. -/
theorem onTabBarDrop_tab_is_pure_reorder
    (items : List Item) (draggedId targetTabId : String) (pos : DropPos)
    (dragged : Item)
    (hf : items.find? (fun i => i.id = draggedId) = some dragged)
    (ht : dragged.type = ItemType.tab) :
    List.Perm (onTabBarDrop items draggedId targetTabId pos) items := by
  have hid : dragged.id = draggedId := by
    have := List.find?_some hf
    simpa using this
  unfold onTabBarDrop
  rw [hf]
  dsimp only
  rw [if_pos ht]
  obtain ⟨hlt, hget⟩ := find?_getElem_findIdx items (fun i => i.id = draggedId)
    dragged hf
  have hfi : items.findIdx (fun i => i.id = dragged.id) =
      items.findIdx (fun i => i.id = draggedId) := by rw [hid]
  have key : ∀ k, List.Perm
      (insertAt (items.eraseIdx (items.findIdx (fun i => i.id = dragged.id)))
        k dragged) items := by
    intro k
    refine (insertAt_perm _ k dragged).trans ?_
    rw [hfi]
    exact (perm_cons_eraseIdx items _ hlt dragged hget).symm
  cases hidx : (items.eraseIdx
      (items.findIdx (fun i => i.id = dragged.id))).findIdx?
      (fun i => i.id = targetTabId) with
  | none =>
    dsimp only
    by_cases hpos : pos = DropPos.after
    · rw [if_pos hpos]
      exact key 0
    · rw [if_neg hpos]
      exact key _
  | some toIdx =>
    dsimp only
    by_cases hpos : pos = DropPos.after
    · rw [if_pos hpos]
      exact key _
    · rw [if_neg hpos]
      exact key _

theorem onTabBarDrop_tab_is_pure_reorder_witness :
    List.Perm (onTabBarDrop w2items "t2" "t1" DropPos.before) w2items :=
  onTabBarDrop_tab_is_pure_reorder w2items "t2" "t1" DropPos.before
    { id := "t2", type := ItemType.tab } (by decide) rfl

theorem insertAt_length (l : List Item) (n : Nat) (x : Item) :
    (insertAt l n x).length = l.length + 1 := by
  unfold insertAt
  rw [List.length_append, List.length_cons, List.length_take, List.length_drop]
  omega

theorem insertAt_getElem_self (l : List Item) (n : Nat) (x : Item)
    (h : n ≤ l.length) : (insertAt l n x)[n]? = some x := by
  unfold insertAt
  rw [List.getElem?_append_right (by rw [List.length_take]; omega)]
  rw [List.length_take, Nat.min_eq_left h, Nat.sub_self]
  simp

theorem insertAt_getElem_succ (l : List Item) (n : Nat) (x : Item)
    (h : n ≤ l.length) : (insertAt l n x)[n + 1]? = l[n]? := by
  unfold insertAt
  rw [List.getElem?_append_right (by rw [List.length_take]; omega)]
  rw [List.length_take, Nat.min_eq_left h]
  have h1 : n + 1 - n = 1 := by omega
  rw [h1, List.getElem?_cons_succ, List.getElem?_drop, Nat.add_zero]

theorem insertAt_getElem_lt (l : List Item) (n : Nat) (x : Item) (k : Nat)
    (hk : k < n) (hn : n ≤ l.length) : (insertAt l n x)[k]? = l[k]? := by
  unfold insertAt
  rw [List.getElem?_append_left (by rw [List.length_take]; omega)]
  exact List.getElem?_take_of_lt hk

theorem eraseIdx_findIdx_eq_filter (l : List Item) (D : String)
    (hnd : (l.map Item.id).Nodup) :
    l.eraseIdx (l.findIdx (fun x => x.id = D)) =
      l.filter (fun x => x.id ≠ D) := by
  induction l with
  | nil => rfl
  | cons a t ih =>
    rw [List.map_cons, List.nodup_cons] at hnd
    rw [List.findIdx_cons, List.filter_cons]
    by_cases ha : a.id = D
    · simp only [ha, decide_True, cond_true, List.eraseIdx_cons_zero]
      have hkeep : t.filter (fun x => x.id ≠ D) = t := by
        apply List.filter_eq_self.mpr
        intro x hx
        have hxa : x.id ≠ a.id := by
          intro he
          exact hnd.1 (he ▸ List.mem_map_of_mem Item.id hx)
        simp [ha ▸ hxa]
      rw [hkeep]
      simp [ha]
    · simp only [ha, decide_False, cond_false, List.eraseIdx_cons_succ]
      rw [ih hnd.2]
      simp [ha]

theorem findIdx_getElem_unique (l : List Item) (p : Item → Bool) (t : Item)
    (hmem : t ∈ l) (hp : p t = true)
    (huniq : ∀ x ∈ l, p x = true → x = t) :
    l.findIdx p < l.length ∧ l[l.findIdx p]? = some t := by
  have hsome : (l.find? p).isSome := by
    rw [List.find?_isSome]
    exact ⟨t, hmem, hp⟩
  obtain ⟨x, hx⟩ := Option.isSome_iff_exists.mp hsome
  have hxt : x = t :=
    huniq x (List.mem_of_find?_eq_some hx) (List.find?_some hx)
  subst hxt
  exact find?_getElem_findIdx l p x hx

/-- C10: every accepted 'before' / 'after' drop of `dragged` on the
reference item `target` produces a store of the same length in which
the moved node carries `target`'s `parentId` and sits immediately
before (resp. after) `target` — the reference position having been
recomputed after the moved node's removal. -/
theorem onDrop_before_after_adjacent
    (items : List Item) (draggedId targetId : String) (pos : DropPos)
    (dragged target : Item)
    (hnd : NodupIds items)
    (hfd : items.find? (fun i => i.id = draggedId) = some dragged)
    (hft : items.find? (fun i => i.id = targetId) = some target)
    (hne : draggedId ≠ targetId)
    (hguard : ¬ (target.type = ItemType.folder ∧
        isDescendant items dragged.id target.id = true))
    (hpos : pos = DropPos.before ∨ pos = DropPos.after) :
    (onDrop items draggedId targetId pos).length = items.length ∧
    ∃ k,
      (pos = DropPos.before →
        (onDrop items draggedId targetId pos)[k]? =
          some { dragged with parentId := target.parentId } ∧
        (onDrop items draggedId targetId pos)[k + 1]? = some target) ∧
      (pos = DropPos.after →
        (onDrop items draggedId targetId pos)[k]? = some target ∧
        (onDrop items draggedId targetId pos)[k + 1]? =
          some { dragged with parentId := target.parentId }) := by
  have hdid : dragged.id = draggedId := by
    have := List.find?_some hfd
    simpa using this
  have htid : target.id = targetId := by
    have := List.find?_some hft
    simpa using this
  have hdm : dragged ∈ items := List.mem_of_find?_eq_some hfd
  have htm : target ∈ items := List.mem_of_find?_eq_some hft
  have hne2 : ¬ dragged.id = targetId := by rw [hdid]; exact hne
  have hnedt : dragged.id ≠ target.id := by rw [hdid, htid]; exact hne
  have hnotin : ¬ (pos = DropPos.inside ∧ target.type = ItemType.folder) := by
    rintro ⟨hp, _⟩
    cases hpos with
    | inl h => rw [h] at hp; cases hp
    | inr h => rw [h] at hp; cases hp
  have hres : onDrop items draggedId targetId pos =
      (if pos = DropPos.after then
        insertAt
          ((items.map (fun i =>
              if i.id = dragged.id then { dragged with parentId := target.parentId }
              else i)).eraseIdx
            ((items.map (fun i =>
              if i.id = dragged.id then { dragged with parentId := target.parentId }
              else i)).findIdx (fun i => i.id = dragged.id)))
          (((items.map (fun i =>
              if i.id = dragged.id then { dragged with parentId := target.parentId }
              else i)).eraseIdx
            ((items.map (fun i =>
              if i.id = dragged.id then { dragged with parentId := target.parentId }
              else i)).findIdx (fun i => i.id = dragged.id))).findIdx
            (fun i => i.id = target.id) + 1)
          { dragged with parentId := target.parentId }
      else
        insertAt
          ((items.map (fun i =>
              if i.id = dragged.id then { dragged with parentId := target.parentId }
              else i)).eraseIdx
            ((items.map (fun i =>
              if i.id = dragged.id then { dragged with parentId := target.parentId }
              else i)).findIdx (fun i => i.id = dragged.id)))
          (((items.map (fun i =>
              if i.id = dragged.id then { dragged with parentId := target.parentId }
              else i)).eraseIdx
            ((items.map (fun i =>
              if i.id = dragged.id then { dragged with parentId := target.parentId }
              else i)).findIdx (fun i => i.id = dragged.id))).findIdx
            (fun i => i.id = target.id))
          { dragged with parentId := target.parentId }) := by
    unfold onDrop
    rw [hfd]
    dsimp only
    rw [if_neg hne2, hft]
    dsimp only
    rw [if_neg hguard, if_neg hnotin]
  generalize hD1 : ({ dragged with parentId := target.parentId } : Item) = D1 at hres
  generalize hi1 : items.map (fun i =>
      if i.id = dragged.id then D1 else i) = items1 at hres
  generalize hi2 : items1.eraseIdx
      (items1.findIdx (fun i => i.id = dragged.id)) = items2 at hres
  generalize hto : items2.findIdx (fun i => i.id = target.id) = toIdx at hres
  have hD1id : D1.id = dragged.id := by rw [← hD1]
  have hids1 : items1.map Item.id = items.map Item.id := by
    rw [← hi1, List.map_map]
    apply List.map_eq_map_iff.mpr
    intro a _
    show (if a.id = dragged.id then D1 else a).id = a.id
    by_cases h : a.id = dragged.id
    · rw [if_pos h, hD1id, h]
    · rw [if_neg h]
  have hnd1 : (items1.map Item.id).Nodup := by rw [hids1]; exact hnd
  have hlen1 : items1.length = items.length := by rw [← hi1, List.length_map]
  have hfilter : items2 = items1.filter (fun x => x.id ≠ dragged.id) := by
    rw [← hi2]
    exact eraseIdx_findIdx_eq_filter items1 dragged.id hnd1
  have hD1mem : D1 ∈ items1 := by
    rw [← hi1]
    exact List.mem_map.mpr ⟨dragged, hdm, by rw [if_pos rfl]⟩
  have huniqD : ∀ x ∈ items1, decide (x.id = dragged.id) = true → x = D1 := by
    intro x hx hxp
    rw [← hi1] at hx
    obtain ⟨y, _, hy⟩ := List.mem_map.mp hx
    by_cases h : y.id = dragged.id
    · rw [if_pos h] at hy; exact hy.symm
    · rw [if_neg h] at hy
      rw [← hy] at hxp
      exact absurd (of_decide_eq_true hxp) h
  obtain ⟨hfrom_lt, _⟩ := findIdx_getElem_unique items1
    (fun i => i.id = dragged.id) D1 hD1mem (by simp [hD1id]) huniqD
  have hlen2 : items2.length = items.length - 1 := by
    rw [← hi2, List.length_eraseIdx_of_lt hfrom_lt, hlen1]
  have htm1 : target ∈ items1 := by
    rw [← hi1]
    exact List.mem_map.mpr ⟨target, htm, by rw [if_neg (Ne.symm hnedt)]⟩
  have htm2 : target ∈ items2 := by
    rw [hfilter]
    exact List.mem_filter.mpr ⟨htm1, by simp [Ne.symm hnedt]⟩
  have huniqT : ∀ x ∈ items2, decide (x.id = target.id) = true → x = target := by
    intro x hx hxp
    have hx1 : x ∈ items1 := by
      rw [hfilter] at hx
      exact (List.mem_filter.mp hx).1
    rw [← hi1] at hx1
    obtain ⟨y, hym, hy⟩ := List.mem_map.mp hx1
    by_cases h : y.id = dragged.id
    · rw [if_pos h] at hy
      rw [← hy] at hxp
      rw [hD1id] at hxp
      exact absurd (of_decide_eq_true hxp) hnedt
    · rw [if_neg h] at hy
      rw [← hy] at hxp ⊢
      exact item_eq_of_id_eq hnd hym htm (of_decide_eq_true hxp)
  have hto2 := findIdx_getElem_unique items2 (fun i => i.id = target.id)
    target htm2 (by simp) huniqT
  rw [hto] at hto2
  obtain ⟨hto_lt, hto_get⟩ := hto2
  have hlen_pos : 0 < items.length := List.length_pos_of_mem hdm
  have hto_le : toIdx ≤ items2.length := Nat.le_of_lt hto_lt
  constructor
  · rw [hres]
    by_cases hp : pos = DropPos.after
    · rw [if_pos hp, insertAt_length]
      omega
    · rw [if_neg hp, insertAt_length]
      omega
  · refine ⟨toIdx, ?_, ?_⟩
    · intro hb
      have hp : ¬ pos = DropPos.after := by rw [hb]; intro h; cases h
      rw [hres, if_neg hp]
      constructor
      · exact insertAt_getElem_self items2 toIdx D1 hto_le
      · rw [insertAt_getElem_succ items2 toIdx D1 hto_le]
        exact hto_get
    · intro ha
      rw [hres, if_pos ha]
      constructor
      · rw [insertAt_getElem_lt items2 (toIdx + 1) D1 toIdx (Nat.lt_succ_self _)
            (Nat.succ_le_of_lt hto_lt)]
        exact hto_get
      · exact insertAt_getElem_self items2 (toIdx + 1) D1
          (Nat.succ_le_of_lt hto_lt)

/-- Concrete store for the C10 witness: two root snippets. -/
def w10items : List Item :=
  [{ id := "a", type := ItemType.snippet },
   { id := "b", type := ItemType.snippet }]

theorem onDrop_before_after_adjacent_witness :
    (onDrop w10items "a" "b" DropPos.after).length = w10items.length ∧
    ∃ k,
      (DropPos.after = DropPos.before →
        (onDrop w10items "a" "b" DropPos.after)[k]? =
          some { ({ id := "a", type := ItemType.snippet } : Item) with
                   parentId :=
                     ({ id := "b", type := ItemType.snippet } : Item).parentId } ∧
        (onDrop w10items "a" "b" DropPos.after)[k + 1]? =
          some { id := "b", type := ItemType.snippet }) ∧
      (DropPos.after = DropPos.after →
        (onDrop w10items "a" "b" DropPos.after)[k]? =
          some { id := "b", type := ItemType.snippet } ∧
        (onDrop w10items "a" "b" DropPos.after)[k + 1]? =
          some { ({ id := "a", type := ItemType.snippet } : Item) with
                   parentId :=
                     ({ id := "b", type := ItemType.snippet } : Item).parentId }) :=
  onDrop_before_after_adjacent w10items "a" "b" DropPos.after
    { id := "a", type := ItemType.snippet }
    { id := "b", type := ItemType.snippet }
    (by decide) (by decide) (by decide) (by decide) (by decide) (Or.inr rfl)

/-- Opening brace character (written numerically). -/
def lb : Char := Char.ofNat 123

/-- Closing brace character (written numerically). -/
def rb : Char := Char.ofNat 125

/-- One attempted match of the placeholder regex
`\{\{arg\$(\d+):([^}]+)\}\}` at the current position: marker, then a
non-empty maximal digit run (greedy `\d+` must be followed by `:`),
then a non-empty run of non-`}` characters, then the two closing
braces.  Returns the id text, the label and the remaining input. -/
def parseTok : List Char → Option (String × String × List Char)
  | c1 :: c2 :: c3 :: c4 :: c5 :: c6 :: rest =>
    if c1 = lb ∧ c2 = lb ∧ c3 = 'a' ∧ c4 = 'r' ∧ c5 = 'g' ∧ c6 = '$' then
      let ds := rest.takeWhile (fun c => c.isDigit)
      let rest1 := rest.dropWhile (fun c => c.isDigit)
      if ds.isEmpty then none
      else
        match rest1 with
        | ':' :: rest2 =>
          let labChars := rest2.takeWhile (fun c => ¬ c = rb)
          let rest3 := rest2.dropWhile (fun c => ¬ c = rb)
          if labChars.isEmpty then none
          else
            match rest3 with
            | c7 :: c8 :: rest4 =>
              if c7 = rb ∧ c8 = rb then
                some (String.mk ds, String.mk labChars, rest4)
              else none
            | _ => none
        | _ => none
    else none
  | _ => none

/-- A scanned command string: literal characters interleaved with
placeholder tokens, exactly as the regex engine of `matchAll` /
`replace` walks the string left to right. -/
inductive Seg where
  | lit (c : Char)
  | tok (id label : String)
deriving DecidableEq

/-- The original text of a placeholder token. -/
def tokText (i lab : String) : List Char :=
  lb :: lb :: 'a' :: 'r' :: 'g' :: '$' :: (i.data ++ ':' :: (lab.data ++ [rb, rb]))

/-- A segment's original text. -/
def segText : Seg → List Char
  | Seg.lit c => [c]
  | Seg.tok i lab => tokText i lab

/-- Concatenated text of a segment list. -/
def segsText : List Seg → List Char
  | [] => []
  | s :: rest => segText s ++ segsText rest

/-- Left-to-right non-overlapping regex scan, with explicit structural
fuel (one unit per input character suffices because every step consumes
at least one character). -/
def scanSegsF : Nat → List Char → List Seg
  | _, [] => []
  | 0, _ :: _ => []
  | fuel + 1, c :: rest =>
    match parseTok (c :: rest) with
    | some (i, lab, r) => Seg.tok i lab :: scanSegsF fuel r
    | none => Seg.lit c :: scanSegsF fuel rest

/-- The regex scan of a command string. -/
def scanSegs (l : List Char) : List Seg := scanSegsF l.length l

/-- Embeds `Array.from(cmd.matchAll(argRegex))` projected to (id, label). -/
def matchesOf (l : List Char) : List (String × String) :=
  (scanSegs l).filterMap
    (fun s => match s with
      | Seg.tok i lab => some (i, lab)
      | Seg.lit _ => none)

/-- The `argsMap` construction of `executeCommand`: first occurrence of
each id string wins (a JS `Map` keyed by the captured id text), keys in
insertion order; with structural fuel for kernel reducibility. -/
def buildArgsF : Nat → List (String × String) → List (String × String)
  | _, [] => []
  | 0, _ :: _ => []
  | fuel + 1, (i, lab) :: rest =>
    (i, lab) :: buildArgsF fuel (rest.filter (fun m => ¬ m.1 = i))

/-- De-duplicated (id, label) pairs, first label wins, insertion
order. -/
def buildArgs (ms : List (String × String)) : List (String × String) :=
  buildArgsF ms.length ms

/-- Embeds `parseInt` on a captured digit run. -/
def natOfString (s : String) : Nat :=
  s.data.foldl (fun n c => n * 10 + (c.toNat - 48)) 0

/-- One insertion step of a stable ascending sort by numeric id (the JS
`sort((a, b) => parseInt(a) - parseInt(b))`, which is stable). -/
def insertSorted (x : String × String) :
    List (String × String) → List (String × String)
  | [] => [x]
  | y :: ys =>
    if natOfString x.1 ≤ natOfString y.1 then x :: y :: ys
    else y :: insertSorted x ys

/-- Stable insertion sort by numeric id ascending. -/
def sortArgs : List (String × String) → List (String × String)
  | [] => []
  | x :: xs => insertSorted x (sortArgs xs)

/-- Embeds `extractPlaceholders`: scan, de-duplicate by id text keeping the
first label, sort by numeric id ascending (stable). -/
def extractPlaceholders (cmd : String) : List (String × String) :=
  sortArgs (buildArgs (matchesOf cmd.data))

/-- The sequential prompt loop of `executeCommand`: one scripted
response per prompt, in sorted-id order.  `none` (including a missing
response) models pressing Escape; the result is the resolved
(id, value) list — `none` if any prompt was cancelled — paired with
the number of prompts actually issued. -/
def runPrompts : List (String × String) → List (Option String) →
    Option (List (String × String)) × Nat
  | [], _ => (some [], 0)
  | (_, _) :: _, [] => (none, 1)
  | (_, _) :: _, none :: _ => (none, 1)
  | (i, _) :: rest, some v :: rs =>
    let p := runPrompts rest rs
    (p.1.map (fun vals => (i, v) :: vals), p.2 + 1)

/-- The `cmd.replace(argRegex, (match, id) => argsMap.get(id)?.value ||
match)` substitution: a token whose id resolves to a non-empty value is
replaced by it; an unresolved id — or one resolved to the EMPTY string,
because of the `||` fallback — keeps its original text. -/
def renderSegs (segs : List Seg) (vals : List (String × String)) : List Char :=
  match segs with
  | [] => []
  | Seg.lit c :: rest => c :: renderSegs rest vals
  | Seg.tok i lab :: rest =>
    (match vals.find? (fun p => p.1 = i) with
     | some p => if p.2 = "" then tokText i lab else p.2.data
     | none => tokText i lab) ++ renderSegs rest vals

/-- The substitution the spec describes: every occurrence of a
placeholder whose id WAS resolved is replaced by its value (empty or
not); only an unresolved id keeps its original text. -/
def specRenderSegs (segs : List Seg) (vals : List (String × String)) :
    List Char :=
  match segs with
  | [] => []
  | Seg.lit c :: rest => c :: specRenderSegs rest vals
  | Seg.tok i lab :: rest =>
    (match vals.find? (fun p => p.1 = i) with
     | some p => p.2.data
     | none => tokText i lab) ++ specRenderSegs rest vals

/-- Embeds `executeCommand` (src/extension.ts 539-589) up to the dispatch
boundary: the first component is the resolved command handed to the
history recorder and the terminal/editor sink (`none` = a prompt was
cancelled, so nothing is recorded or dispatched); the second component
is the number of prompts issued. -/
def executeCommandModel (cmd : String) (responses : List (Option String)) :
    Option String × Nat :=
  let ms := matchesOf cmd.data
  if ms.isEmpty then (some cmd, 0)
  else
    let args := sortArgs (buildArgs ms)
    match runPrompts args responses with
    | (none, n) => (none, n)
    | (some vals, n) =>
      (some (String.mk (renderSegs (scanSegs cmd.data) vals)), n)

theorem parseTok_eq (l : List Char) (i lab : String) (r : List Char)
    (h : parseTok l = some (i, lab, r)) :
    l = tokText i lab ++ r ∧ r.length < l.length := by
  match l with
  | [] => cases h
  | [c1] => cases h
  | [c1, c2] => cases h
  | [c1, c2, c3] => cases h
  | [c1, c2, c3, c4] => cases h
  | [c1, c2, c3, c4, c5] => cases h
  | c1 :: c2 :: c3 :: c4 :: c5 :: c6 :: rest =>
    rw [parseTok] at h
    dsimp only at h
    repeat' split at h
    all_goals try cases h
    rename_i hg hds rest1 rest2 heq1 hlab rest3 c7 c8 hbr heq3
    obtain ⟨hg1, hg2, hg3, hg4, hg5, hg6⟩ := hg
    obtain ⟨hb1, hb2⟩ := hbr
    subst hg1; subst hg2; subst hg3; subst hg4; subst hg5
    subst hg6; subst hb1; subst hb2
    have hrest : rest = rest.takeWhile (fun c => c.isDigit) ++
        (':' :: rest2) := by
      rw [← heq1, List.takeWhile_append_dropWhile]
    have hrest2 : rest2 = rest2.takeWhile (fun c => ¬ c = rb) ++
        (rb :: rb :: r) := by
      rw [← heq3, List.takeWhile_append_dropWhile]
    constructor
    · unfold tokText
      simp only [List.cons_append]
      conv_lhs => rw [hrest, hrest2]
      simp [List.append_assoc]
    · have e1 : rest.length =
          (rest.takeWhile (fun c => c.isDigit)).length + (1 + rest2.length) := by
        conv_lhs => rw [hrest]
        simp only [List.length_append, List.length_cons]
        omega
      have e2 : rest2.length =
          (rest2.takeWhile (fun c => ¬ c = rb)).length +
            (2 + r.length) := by
        conv_lhs => rw [hrest2]
        simp only [List.length_append, List.length_cons]
        omega
      simp only [List.length_cons]
      omega

theorem scanSegsF_fuel_irrel :
    ∀ (f1 : Nat), ∀ (f2 : Nat) (l : List Char),
      l.length ≤ f1 → l.length ≤ f2 → scanSegsF f1 l = scanSegsF f2 l := by
  intro f1
  induction f1 with
  | zero =>
    intro f2 l h1 _
    have : l = [] := List.length_eq_zero.mp (Nat.le_zero.mp h1)
    subst this
    cases f2 <;> rfl
  | succ f1 ih =>
    intro f2 l h1 h2
    cases l with
    | nil => cases f2 <;> rfl
    | cons c rest =>
      cases f2 with
      | zero => exact absurd h2 (by simp)
      | succ f2 =>
        show scanSegsF (f1 + 1) (c :: rest) = scanSegsF (f2 + 1) (c :: rest)
        rw [scanSegsF, scanSegsF]
        cases hp : parseTok (c :: rest) with
        | none =>
          dsimp only
          rw [ih f2 rest (by simpa using h1) (by simpa using h2)]
        | some x =>
          obtain ⟨i, lab, r⟩ := x
          have hlt := (parseTok_eq _ _ _ _ hp).2
          simp only [List.length_cons] at hlt h1 h2
          dsimp only
          rw [ih f2 r (by omega) (by omega)]

theorem scanSegs_cons (c : Char) (rest : List Char) :
    scanSegs (c :: rest) =
      (match parseTok (c :: rest) with
       | some (i, lab, r) => Seg.tok i lab :: scanSegs r
       | none => Seg.lit c :: scanSegs rest) := by
  show scanSegsF (rest.length + 1) (c :: rest) = _
  rw [scanSegsF]
  cases hp : parseTok (c :: rest) with
  | none => rfl
  | some x =>
    obtain ⟨i, lab, r⟩ := x
    have hlt := (parseTok_eq _ _ _ _ hp).2
    simp only [List.length_cons] at hlt
    dsimp only
    rw [scanSegsF_fuel_irrel rest.length r.length r (by omega) (by omega)]
    rfl

theorem scanSegs_text : ∀ (l : List Char), segsText (scanSegs l) = l := by
  have key : ∀ (n : Nat) (l : List Char), l.length ≤ n →
      segsText (scanSegs l) = l := by
    intro n
    induction n with
    | zero =>
      intro l h
      have : l = [] := List.length_eq_zero.mp (Nat.le_zero.mp h)
      subst this
      rfl
    | succ n ih =>
      intro l h
      cases l with
      | nil => rfl
      | cons c rest =>
        rw [scanSegs_cons]
        cases hp : parseTok (c :: rest) with
        | none =>
          show segText (Seg.lit c) ++ segsText (scanSegs rest) = c :: rest
          rw [ih rest (by simpa using h)]
          rfl
        | some x =>
          obtain ⟨i, lab, r⟩ := x
          obtain ⟨heq, hlt⟩ := parseTok_eq _ _ _ _ hp
          show segText (Seg.tok i lab) ++ segsText (scanSegs r) =
            c :: rest
          simp only [List.length_cons] at hlt h
          rw [ih r (by omega)]
          exact (show tokText i lab ++ r = c :: rest from heq.symm)
  exact fun l => key l.length l (Nat.le_refl _)

theorem runPrompts_cancel :
    ∀ (k : Nat) (args : List (String × String))
      (responses : List (Option String)),
      k < args.length →
      (∀ j, j < k → ∃ v, responses[j]? = some (some v)) →
      responses[k]? = some none →
      runPrompts args responses = (none, k + 1) := by
  intro k
  induction k with
  | zero =>
    intro args responses hk hb hc
    cases args with
    | nil => exact absurd hk (by simp)
    | cons head rest =>
      obtain ⟨i, lab⟩ := head
      cases responses with
      | nil => simp at hc
      | cons r rs =>
        rw [List.getElem?_cons_zero] at hc
        cases Option.some.inj hc
        rfl
  | succ k ih =>
    intro args responses hk hb hc
    cases args with
    | nil => exact absurd hk (by simp)
    | cons head rest =>
      obtain ⟨i, lab⟩ := head
      cases responses with
      | nil =>
        obtain ⟨v, hv⟩ := hb 0 (Nat.succ_pos k)
        simp at hv
      | cons r rs =>
        obtain ⟨v, hv⟩ := hb 0 (Nat.succ_pos k)
        rw [List.getElem?_cons_zero] at hv
        cases Option.some.inj hv
        show ((runPrompts rest rs).1.map _, (runPrompts rest rs).2 + 1) =
          (none, k + 1 + 1)
        rw [ih rest rs (by simpa using hk)
          (fun j hj => by
            have h2 := hb (j + 1) (Nat.succ_lt_succ hj)
            simpa using h2)
          (by simpa using hc)]
        rfl

/-- C7: if the prompt for the placeholder at position `k` of the sorted
sequence is cancelled while all earlier prompts were answered, the
whole resolution aborts atomically: nothing is dispatched or recorded
into history (first component `none`) and exactly `k + 1` prompts were
issued — none for any later placeholder. -/
theorem cancellation_aborts_atomically (cmd : String)
    (responses : List (Option String)) (k : Nat)
    (hk : k < (extractPlaceholders cmd).length)
    (hb : ∀ j, j < k → ∃ v, responses[j]? = some (some v))
    (hc : responses[k]? = some none) :
    executeCommandModel cmd responses = (none, k + 1) := by
  have hne : (matchesOf cmd.data).isEmpty = false := by
    cases hm : matchesOf cmd.data with
    | nil =>
      exfalso
      have : extractPlaceholders cmd = [] := by
        unfold extractPlaceholders buildArgs
        rw [hm]
        rfl
      rw [this] at hk
      exact absurd hk (by simp)
    | cons a l => rfl
  unfold executeCommandModel
  dsimp only
  simp only [hne, Bool.false_eq_true, if_false]
  unfold extractPlaceholders at hk
  rw [runPrompts_cancel k _ responses hk hb hc]

theorem cancellation_aborts_atomically_witness :
    executeCommandModel "git tag \x7b\x7barg$1:Version\x7d\x7d" [none] =
      (none, 1) :=
  cancellation_aborts_atomically "git tag \x7b\x7barg$1:Version\x7d\x7d"
    [none] 0 (by decide) (fun j hj => absurd hj (Nat.not_lt_zero j)) (by decide)

/-- C3 counterexample: an empty string is accepted at the prompt
(distinct from cancellation — one prompt was issued and resolution
succeeded), yet the `|| match` fallback leaves the placeholder token
unreplaced instead of substituting the empty value as the claim
states. -/
theorem empty_value_left_unsubstituted :
    executeCommandModel "echo \x7b\x7barg$1:X\x7d\x7d" [some ""] =
      (some "echo \x7b\x7barg$1:X\x7d\x7d", 1) ∧
    ("echo \x7b\x7barg$1:X\x7d\x7d" : String) ≠ "echo " := by
  exact ⟨by decide, by decide⟩

theorem runPrompts_values :
    ∀ (args : List (String × String)) (responses : List (Option String))
      (vals : List (String × String)) (n : Nat),
      runPrompts args responses = (some vals, n) →
      ∀ p ∈ vals, some p.2 ∈ responses := by
  intro args
  induction args with
  | nil =>
    intro responses vals n h p hp
    rw [runPrompts] at h
    cases h
    cases hp
  | cons head rest ih =>
    intro responses vals n h p hp
    obtain ⟨i, lab⟩ := head
    cases responses with
    | nil => rw [runPrompts] at h; cases h
    | cons r rs =>
      cases r with
      | none => rw [runPrompts] at h; cases h
      | some v =>
        rw [runPrompts] at h
        cases hrec : (runPrompts rest rs).1 with
        | none => rw [hrec] at h; cases h
        | some vals2 =>
          rw [hrec] at h
          have h1 : (i, v) :: vals2 = vals := by
            have h2 := congrArg Prod.fst h
            simpa using h2
          rw [← h1] at hp
          cases List.mem_cons.mp hp with
          | inl he => rw [he]; exact List.mem_cons_self _ _
          | inr ht =>
            have h3 := ih rs vals2 (runPrompts rest rs).2
              (by rw [← hrec]) p ht
            exact List.mem_cons_of_mem _ h3

theorem render_eq_spec (vals : List (String × String))
    (hval : ∀ p ∈ vals, p.2 ≠ "") :
    ∀ segs, renderSegs segs vals = specRenderSegs segs vals := by
  intro segs
  induction segs with
  | nil => rfl
  | cons s rest ih =>
    cases s with
    | lit c => rw [renderSegs, specRenderSegs, ih]
    | tok i lab =>
      rw [renderSegs, specRenderSegs, ih]
      cases hf : vals.find? (fun p => p.1 = i) with
      | none => rfl
      | some p =>
        have hp : p ∈ vals := List.mem_of_find?_eq_some hf
        dsimp only
        rw [if_neg (hval p hp)]

theorem specRender_no_toks (vals : List (String × String)) :
    ∀ segs, (∀ s ∈ segs, ∀ i lab, s ≠ Seg.tok i lab) →
      specRenderSegs segs vals = segsText segs := by
  intro segs
  induction segs with
  | nil => intro _; rfl
  | cons s rest ih =>
    intro h
    cases s with
    | lit c =>
      rw [specRenderSegs, segsText, ih (fun s hs => h s (List.mem_cons_of_mem _ hs))]
      rfl
    | tok i lab =>
      exact absurd rfl (h (Seg.tok i lab) (List.mem_cons_self _ _) i lab)

/-- C3 (amended): when resolution succeeds and every supplied value is
non-empty, the dispatched string is exactly the spec's substitution —
every occurrence of each resolved placeholder replaced by its value,
unresolved ids keeping their original text.  (The counterexample shows
the non-emptiness condition is necessary: an empty supplied value —
legal, distinct from cancellation — is NOT substituted, the token
keeps its original text because of the `|| match` fallback.) -/
theorem substitution_correct (cmd : String)
    (responses : List (Option String)) (vals : List (String × String))
    (n : Nat)
    (hne : ∀ v, some v ∈ responses → v ≠ "")
    (hrun : runPrompts (extractPlaceholders cmd) responses = (some vals, n)) :
    executeCommandModel cmd responses =
      (some (String.mk (specRenderSegs (scanSegs cmd.data) vals)), n) := by
  have hval : ∀ p ∈ vals, p.2 ≠ "" := fun p hp =>
    hne p.2 (runPrompts_values _ _ _ _ hrun p hp)
  unfold executeCommandModel
  dsimp only
  by_cases hm : (matchesOf cmd.data).isEmpty = true
  · have hms : matchesOf cmd.data = [] := by
      cases h2 : matchesOf cmd.data with
      | nil => rfl
      | cons a l => rw [h2] at hm; cases hm
    have hex : extractPlaceholders cmd = [] := by
      unfold extractPlaceholders buildArgs
      rw [hms]
      rfl
    rw [hex] at hrun
    rw [runPrompts] at hrun
    have hv : vals = [] := (Option.some.inj (congrArg Prod.fst hrun)).symm
    have hn : n = 0 := (congrArg Prod.snd hrun).symm
    subst hv
    subst hn
    rw [if_pos hm]
    have hnotok : ∀ s ∈ scanSegs cmd.data, ∀ i lab, s ≠ Seg.tok i lab := by
      intro s hs i lab hcontra
      subst hcontra
      have : (i, lab) ∈ matchesOf cmd.data := by
        unfold matchesOf
        exact List.mem_filterMap.mpr ⟨Seg.tok i lab, hs, rfl⟩
      rw [hms] at this
      cases this
    rw [specRender_no_toks [] _ hnotok, scanSegs_text]
  · rw [if_neg hm]
    unfold extractPlaceholders at hrun
    rw [hrun]
    dsimp only
    rw [render_eq_spec vals hval]

theorem substitution_correct_witness :
    executeCommandModel "git tag \x7b\x7barg$1:Version\x7d\x7d"
        [some "v1.0"] =
      (some (String.mk (specRenderSegs
        (scanSegs ("git tag \x7b\x7barg$1:Version\x7d\x7d" : String).data)
        [("1", "v1.0")])), 1) ∧
    String.mk (specRenderSegs
        (scanSegs ("git tag \x7b\x7barg$1:Version\x7d\x7d" : String).data)
        [("1", "v1.0")]) = "git tag v1.0" :=
  ⟨substitution_correct "git tag \x7b\x7barg$1:Version\x7d\x7d"
      [some "v1.0"] [("1", "v1.0")] 1
      (by
        intro v hv
        have h2 : v = "v1.0" := by simpa using hv
        rw [h2]
        decide)
      (by decide),
   by decide⟩

/-- C6 counterexample: with ids `01` and `1` (equal `parseInt` value 1,
distinct captured text) the extraction keeps BOTH entries — the
`argsMap` is keyed by the captured id text, not the numeric value — so
de-duplication is NOT by numeric id as claimed (the claim would give
the single entry (1, "A")). -/
theorem extract_dedups_by_text_not_numeric :
    extractPlaceholders "cmd \x7b\x7barg$01:A\x7d\x7d \x7b\x7barg$1:B\x7d\x7d" =
      [("01", "A"), ("1", "B")] ∧
    natOfString "01" = natOfString "1" ∧
    (extractPlaceholders
        "cmd \x7b\x7barg$01:A\x7d\x7d \x7b\x7barg$1:B\x7d\x7d").length ≠ 1 := by
  exact ⟨by decide, by decide, by decide⟩

theorem find?_filter_imp {α : Type} (q pr : α → Bool) (l : List α)
    (himp : ∀ x, q x = true → pr x = true) :
    (l.filter pr).find? q = l.find? q := by
  induction l with
  | nil => rfl
  | cons a t ih =>
    rw [List.filter_cons]
    by_cases hpr : pr a = true
    · rw [if_pos hpr]
      by_cases hq : q a = true
      · rw [List.find?_cons_of_pos _ hq, List.find?_cons_of_pos _ hq]
      · rw [List.find?_cons_of_neg _ hq, List.find?_cons_of_neg _ hq, ih]
    · rw [if_neg hpr]
      have hq : ¬ q a = true := fun hqa => hpr (himp a hqa)
      rw [List.find?_cons_of_neg _ hq, ih]

theorem buildArgsF_fuel_irrel :
    ∀ (f1 f2 : Nat) (ms : List (String × String)),
      ms.length ≤ f1 → ms.length ≤ f2 → buildArgsF f1 ms = buildArgsF f2 ms := by
  intro f1
  induction f1 with
  | zero =>
    intro f2 ms h1 _
    have : ms = [] := List.length_eq_zero.mp (Nat.le_zero.mp h1)
    subst this
    cases f2 <;> rfl
  | succ f1 ih =>
    intro f2 ms h1 h2
    cases ms with
    | nil => cases f2 <;> rfl
    | cons head rest =>
      obtain ⟨i, lab⟩ := head
      cases f2 with
      | zero => exact absurd h2 (by simp)
      | succ f2 =>
        rw [buildArgsF, buildArgsF]
        congr 1
        apply ih
        · exact le_trans (List.length_filter_le _ _) (by simpa using h1)
        · exact le_trans (List.length_filter_le _ _) (by simpa using h2)

theorem buildArgs_cons (i lab : String) (rest : List (String × String)) :
    buildArgs ((i, lab) :: rest) =
      (i, lab) :: buildArgs (rest.filter (fun m => ¬ m.1 = i)) := by
  unfold buildArgs
  show buildArgsF (rest.length + 1) ((i, lab) :: rest) = _
  rw [buildArgsF]
  congr 1
  exact buildArgsF_fuel_irrel rest.length _ _
    (List.length_filter_le _ _) (Nat.le_refl _)

theorem buildArgs_subset :
    ∀ (n : Nat) (ms : List (String × String)), ms.length ≤ n →
      ∀ p ∈ buildArgs ms, p ∈ ms := by
  intro n
  induction n with
  | zero =>
    intro ms h p hp
    have : ms = [] := List.length_eq_zero.mp (Nat.le_zero.mp h)
    subst this
    cases hp
  | succ n ih =>
    intro ms h p hp
    cases ms with
    | nil => cases hp
    | cons head rest =>
      obtain ⟨i, lab⟩ := head
      rw [buildArgs_cons] at hp
      cases List.mem_cons.mp hp with
      | inl he => rw [he]; exact List.mem_cons_self _ _
      | inr ht =>
        have h2 := ih (rest.filter (fun m => ¬ m.1 = i))
          (le_trans (List.length_filter_le _ _) (by simpa using h)) p ht
        exact List.mem_cons_of_mem _ (List.mem_of_mem_filter h2)

theorem buildArgs_first :
    ∀ (n : Nat) (ms : List (String × String)), ms.length ≤ n →
      ∀ p ∈ buildArgs ms, ms.find? (fun m => m.1 = p.1) = some p := by
  intro n
  induction n with
  | zero =>
    intro ms h p hp
    have : ms = [] := List.length_eq_zero.mp (Nat.le_zero.mp h)
    subst this
    cases hp
  | succ n ih =>
    intro ms h p hp
    cases ms with
    | nil => cases hp
    | cons head rest =>
      obtain ⟨i, lab⟩ := head
      rw [buildArgs_cons] at hp
      cases List.mem_cons.mp hp with
      | inl he =>
        subst he
        exact List.find?_cons_of_pos _ (by simp)
      | inr ht =>
        have hlen : (rest.filter (fun m => ¬ m.1 = i)).length ≤ n :=
          le_trans (List.length_filter_le _ _) (by simpa using h)
        have hfind := ih _ hlen p ht
        have hpmem := buildArgs_subset n _ hlen p ht
        have hpne : ¬ p.1 = i := by
          have := List.mem_filter.mp hpmem
          simpa using this.2
        rw [List.find?_cons_of_neg _ (by simpa using fun he => hpne he.symm)]
        rw [← hfind]
        exact (find?_filter_imp _ _ rest
          (fun x hx => by
            simp only [decide_eq_true_eq] at hx
            simp [hx, hpne])).symm

theorem buildArgs_keysNodup :
    ∀ (n : Nat) (ms : List (String × String)), ms.length ≤ n →
      List.Pairwise (fun a b => a.1 ≠ b.1) (buildArgs ms) := by
  intro n
  induction n with
  | zero =>
    intro ms h
    have : ms = [] := List.length_eq_zero.mp (Nat.le_zero.mp h)
    subst this
    exact List.Pairwise.nil
  | succ n ih =>
    intro ms h
    cases ms with
    | nil => exact List.Pairwise.nil
    | cons head rest =>
      obtain ⟨i, lab⟩ := head
      rw [buildArgs_cons]
      have hlen : (rest.filter (fun m => ¬ m.1 = i)).length ≤ n :=
        le_trans (List.length_filter_le _ _) (by simpa using h)
      refine List.Pairwise.cons ?_ (ih _ hlen)
      intro b hb
      have hbmem := buildArgs_subset n _ hlen b hb
      have : ¬ b.1 = i := by
        have h2 := List.mem_filter.mp hbmem
        simpa using h2.2
      exact fun he => this (he.symm)

theorem buildArgs_ids :
    ∀ (n : Nat) (ms : List (String × String)), ms.length ≤ n →
      ∀ i, (∃ lab, (i, lab) ∈ ms) ↔ (∃ lab, (i, lab) ∈ buildArgs ms) := by
  intro n
  induction n with
  | zero =>
    intro ms h i
    have : ms = [] := List.length_eq_zero.mp (Nat.le_zero.mp h)
    subst this
    simp [buildArgs, buildArgsF]
  | succ n ih =>
    intro ms h i
    cases ms with
    | nil => simp [buildArgs, buildArgsF]
    | cons head rest =>
      obtain ⟨j, labj⟩ := head
      rw [buildArgs_cons]
      have hlen : (rest.filter (fun m => ¬ m.1 = j)).length ≤ n :=
        le_trans (List.length_filter_le _ _) (by simpa using h)
      constructor
      · rintro ⟨lab, hmem⟩
        cases List.mem_cons.mp hmem with
        | inl he =>
          have : i = j := by
            have := congrArg Prod.fst he
            simpa using this
          subst this
          exact ⟨labj, List.mem_cons_self _ _⟩
        | inr ht =>
          by_cases hij : i = j
          · subst hij
            exact ⟨labj, List.mem_cons_self _ _⟩
          · have hmemf : (i, lab) ∈ rest.filter (fun m => ¬ m.1 = j) :=
              List.mem_filter.mpr ⟨ht, by simpa using hij⟩
            obtain ⟨lab2, hl2⟩ := (ih _ hlen i).mp ⟨lab, hmemf⟩
            exact ⟨lab2, List.mem_cons_of_mem _ hl2⟩
      · rintro ⟨lab, hmem⟩
        cases List.mem_cons.mp hmem with
        | inl he =>
          have h1 : i = j := by
            have := congrArg Prod.fst he
            simpa using this
          have h2 : lab = labj := by
            have := congrArg Prod.snd he
            simpa using this
          subst h1; subst h2
          exact ⟨lab, List.mem_cons_self _ _⟩
        | inr ht =>
          obtain ⟨lab2, hl2⟩ := (ih _ hlen i).mpr ⟨lab, ht⟩
          exact ⟨lab2, List.mem_cons_of_mem _ (List.mem_of_mem_filter hl2)⟩

theorem insertSorted_perm (x : String × String) :
    ∀ (l : List (String × String)),
      List.Perm (insertSorted x l) (x :: l) := by
  intro l
  induction l with
  | nil => exact List.Perm.refl _
  | cons y ys ih =>
    rw [insertSorted]
    by_cases hle : natOfString x.1 ≤ natOfString y.1
    · rw [if_pos hle]
    · rw [if_neg hle]
      exact (ih.cons y).trans (List.Perm.swap x y ys)

theorem sortArgs_perm :
    ∀ (l : List (String × String)), List.Perm (sortArgs l) l := by
  intro l
  induction l with
  | nil => exact List.Perm.refl _
  | cons x xs ih =>
    rw [sortArgs]
    exact (insertSorted_perm x (sortArgs xs)).trans (ih.cons x)

theorem insertSorted_sorted (x : String × String) :
    ∀ (l : List (String × String)),
      List.Pairwise (fun a b => natOfString a.1 ≤ natOfString b.1) l →
      List.Pairwise (fun a b => natOfString a.1 ≤ natOfString b.1)
        (insertSorted x l) := by
  intro l
  induction l with
  | nil =>
    intro _
    exact List.pairwise_singleton _ _
  | cons y ys ih =>
    intro h
    have hy := List.pairwise_cons.mp h
    rw [insertSorted]
    by_cases hle : natOfString x.1 ≤ natOfString y.1
    · rw [if_pos hle]
      refine List.Pairwise.cons ?_ h
      intro b hb
      cases List.mem_cons.mp hb with
      | inl he => rw [he]; exact hle
      | inr ht => exact le_trans hle (hy.1 b ht)
    · rw [if_neg hle]
      refine List.Pairwise.cons ?_ (ih hy.2)
      intro b hb
      have hb2 := (insertSorted_perm x ys).mem_iff.mp hb
      cases List.mem_cons.mp hb2 with
      | inl he => rw [he]; exact Nat.le_of_not_le hle
      | inr ht => exact hy.1 b ht

theorem sortArgs_sorted :
    ∀ (l : List (String × String)),
      List.Pairwise (fun a b => natOfString a.1 ≤ natOfString b.1)
        (sortArgs l) := by
  intro l
  induction l with
  | nil => exact List.Pairwise.nil
  | cons x xs ih =>
    rw [sortArgs]
    exact insertSorted_sorted x (sortArgs xs) ih

/-- C6 (amended): placeholder extraction de-duplicates by the CAPTURED
ID TEXT — the first-occurring label wins when the same id text repeats
— and stably sorts the result by numeric (`parseInt`) value ascending;
ids that are textually distinct but numerically equal (leading zeros)
are NOT merged.  Formally: extracted ids are pairwise distinct as
strings, the list is weakly sorted by numeric value, each extracted
pair is the first raw occurrence of its id text, and the extracted id
texts are exactly the scanned ones.  The claim's example still holds:
extracting from "cmd {{arg$2:B}} {{arg$1:A}} {{arg$1:A2}}" (brace
syntax) yields [("1", "A"), ("2", "B")]. -/
theorem extractPlaceholders_spec (cmd : String) :
    List.Pairwise (fun a b => a.1 ≠ b.1) (extractPlaceholders cmd) ∧
    List.Pairwise (fun a b => natOfString a.1 ≤ natOfString b.1)
      (extractPlaceholders cmd) ∧
    (∀ p ∈ extractPlaceholders cmd,
      (matchesOf cmd.data).find? (fun m => m.1 = p.1) = some p) ∧
    (∀ i, (∃ lab, (i, lab) ∈ matchesOf cmd.data) ↔
      (∃ lab, (i, lab) ∈ extractPlaceholders cmd)) ∧
    extractPlaceholders
        "cmd \x7b\x7barg$2:B\x7d\x7d \x7b\x7barg$1:A\x7d\x7d \x7b\x7barg$1:A2\x7d\x7d" =
      [("1", "A"), ("2", "B")] := by
  have hperm : List.Perm (extractPlaceholders cmd)
      (buildArgs (matchesOf cmd.data)) := sortArgs_perm _
  refine ⟨?_, ?_, ?_, ?_, by decide⟩
  · exact (List.Perm.pairwise_iff
      (by intro a b h he; exact h he.symm) hperm).mpr
      (buildArgs_keysNodup (matchesOf cmd.data).length _ (Nat.le_refl _))
  · exact sortArgs_sorted _
  · intro p hp
    exact buildArgs_first (matchesOf cmd.data).length _ (Nat.le_refl _) p
      (hperm.mem_iff.mp hp)
  · intro i
    rw [buildArgs_ids (matchesOf cmd.data).length _ (Nat.le_refl _) i]
    constructor
    · rintro ⟨lab, hl⟩
      exact ⟨lab, hperm.mem_iff.mpr hl⟩
    · rintro ⟨lab, hl⟩
      exact ⟨lab, hperm.mem_iff.mp hl⟩

end AcidSnip
